import Mathlib

/-!
Verification of the string-extraction and key-management core of the
vsbl-l10n editor extension (`src/extension.ts`), shallowly embedded in Lean.

Strings are modelled as Lean `String`s with the underlying `List Char`
carrying the computation.  JavaScript objects holding the ARB resource
document are modelled as ordered association lists (`ArbDoc`), matching
JS insertion-order iteration for the non-numeric keys used throughout.
JS truthiness of looked-up values is modelled explicitly (`jsTruthy`).
-/

namespace L10n

/-- The apostrophe character (U+0027). -/
def apos : Char := Char.ofNat 39

/-- ASCII lowercase-letter test, the `[a-z]` character class
(code points 97–122). -/
def isLowerChar (c : Char) : Bool := (97 ≤ c.toNat) && (c.toNat ≤ 122)

/-- ASCII uppercase-letter test, the `[A-Z]` character class
(code points 65–90). -/
def isUpperChar (c : Char) : Bool := (65 ≤ c.toNat) && (c.toNat ≤ 90)

/-- ASCII alphabetic test, the `[a-zA-Z]` character class of the source. -/
def isAlphaChar (c : Char) : Bool := isLowerChar c || isUpperChar c

/-- ASCII decimal-digit test, the `[0-9]` character class
(code points 48–57). -/
def isDigitChar (c : Char) : Bool := (48 ≤ c.toNat) && (c.toNat ≤ 57)

/-- Lower-case a single ASCII character, as `String.prototype.toLowerCase`
acts on the ASCII range. -/
def lowerChar (c : Char) : Char :=
  if isUpperChar c then Char.ofNat (c.toNat + 32) else c

/-- Upper-case a single ASCII character, as `String.prototype.toUpperCase`
acts on the ASCII range. -/
def upperChar (c : Char) : Char :=
  if isLowerChar c then Char.ofNat (c.toNat - 32) else c

/-- A quote character, the `/['"]/` class of the source. -/
def isQuoteChar (c : Char) : Bool := (c = '"') || (c = apos)

/-- Whitespace as trimmed by `String.prototype.trim` (ASCII part). -/
def isWsChar (c : Char) : Bool :=
  (c = ' ') || (c = Char.ofNat 9) || (c = Char.ofNat 10) || (c = Char.ofNat 13)

/-- JS quote stripping, the global replace with the quote class: delete
every quote character. -/
def removeQuotes (l : List Char) : List Char := l.filter (fun c => !isQuoteChar c)

/-- JS lower-casing of a character list over the ASCII range. -/
def lowerAll (l : List Char) : List Char := l.map lowerChar

/-- JS trim: drop leading and trailing whitespace. -/
def trimChars (l : List Char) : List Char :=
  ((l.dropWhile isWsChar).reverse.dropWhile isWsChar).reverse

/-- JS `String.prototype.split(' ')`: split at every single space,
keeping empty segments (`"".split(' ') = [""]`). -/
def splitSpace : List Char → List (List Char)
  | [] => [[]]
  | c :: rest =>
    if c = ' ' then [] :: splitSpace rest
    else
      match splitSpace rest with
      | w :: ws => (c :: w) :: ws
      | [] => [[c]]

/-- JS stripping of non-letters from a word: keep only ASCII letters. -/
def stripNonAlpha (l : List Char) : List Char := l.filter isAlphaChar

/-- JS capitalization of the first character of a word. -/
def capFirst : List Char → List Char
  | [] => []
  | c :: rest => upperChar c :: rest

/-- JS lower-casing of the first character of a string. -/
def lowFirst : List Char → List Char
  | [] => []
  | c :: rest => lowerChar c :: rest

/-- JS `s.replace(pat, rep)` with a plain-string pattern: replace the first
occurrence of `pat` (an empty pattern matches at position 0). -/
def replaceFirst (s pat rep : List Char) : List Char :=
  match s with
  | [] => if pat = [] then rep else []
  | c :: rest =>
    if pat.isPrefixOf (c :: rest) then rep ++ (c :: rest).drop pat.length
    else c :: replaceFirst rest pat rep

/-- The function generateKeyFromString (`src/extension.ts:394`): split at spaces, strip
non-alphabetic characters from each word, capitalize each word, join, and
lower-case the first letter.  (The initial quote-stripping `replace` on
line 396 discards its result and has no effect.) -/
def generateKeyFromString (s : String) : String :=
  ⟨lowFirst (((splitSpace s.data).map (fun w => capFirst (stripNonAlpha w))).flatten)⟩

/-- The per-character action of `toSnakeCase`: an uppercase letter becomes
an underscore followed by its lowercase form, anything else is kept. -/
def snakeChar (c : Char) : List Char :=
  if isUpperChar c then ['_', lowerChar c] else [c]

/-- The function toSnakeCase (`src/extension.ts:532`): replace every
uppercase letter by an underscore and its lowercase form. -/
def toSnakeCase (s : String) : String := ⟨s.data.flatMap snakeChar⟩

/-- The global replacement `/_([a-z])/g → upper` performed by `toCamelCase`
after lower-casing: scan left to right, each `_x` with `x ∈ [a-z]` becomes
`X`, a failed match advances one character. -/
def camelStep : List Char → List Char
  | [] => []
  | c :: rest =>
    if c = '_' then
      match rest with
      | [] => ['_']
      | c2 :: rest2 =>
        if isLowerChar c2 then upperChar c2 :: camelStep rest2
        else '_' :: camelStep (c2 :: rest2)
    else c :: camelStep rest

/-- The function toCamelCase (`src/extension.ts:542`): lower-case everything, then
capitalize each letter directly following an underscore, dropping the
underscore. -/
def toCamelCase (s : String) : String := ⟨camelStep (lowerAll s.data)⟩

/-- The function generateKey (`src/extension.ts:420`): snake-case the context (active
file name) and the variable name, join with an underscore, camel-case the
result.  A missing file name enters as the empty string. -/
def generateKey (variableName fileName : String) : String :=
  toCamelCase ⟨(toSnakeCase fileName).data ++ '_' :: (toSnakeCase variableName).data⟩

/-- The marker token for translatable strings. -/
def translatableToken : String := ".translatable"

/-- The lookup prefix spliced into Dart code. -/
def translationPrefix : String := "LocalizationProvider.instance.l10n"

/-- The plain-path normalization of the raw selected text
(`src/extension.ts:293`): remove the first occurrence of the marker token,
delete every quote character, trim whitespace. -/
def normalizePlain (text : String) : String :=
  ⟨trimChars (removeQuotes (replaceFirst text.data translatableToken.data []))⟩

/-- A value stored in the ARB resource document: a plain translation string,
or a JSON object (used by the `@`-prefixed placeholder-metadata entries). -/
inductive ArbValue where
  | str (s : String)
  | obj (fields : List (String × ArbValue))

/-- The ARB resource document: an ordered mapping, modelling a JS object
with insertion-order iteration. -/
abbrev ArbDoc := List (String × ArbValue)

/-- Property lookup on a JS object. -/
def lookupKey : ArbDoc → String → Option ArbValue
  | [], _ => none
  | (k, v) :: rest, key => if k = key then some v else lookupKey rest key

/-- Property assignment on a JS object: an existing key
keeps its position, a new key is appended. -/
def setKey : ArbDoc → String → ArbValue → ArbDoc
  | [], key, v => [(key, v)]
  | (k, w) :: rest, key, v =>
    if k = key then (key, v) :: rest else (k, w) :: setKey rest key v

/-- JS truthiness of a looked-up property: a missing key and the empty
string are falsy,
every other string and every object is truthy. -/
def jsTruthy : Option ArbValue → Bool
  | none => false
  | some (.str s) => if s = "" then false else true
  | some (.obj _) => true

/-- The duplicate-key check (truthiness of the entry at the key) performed before an
insertion (`src/extension.ts:187` and `src/extension.ts:597`). -/
def findDuplicateByKey (doc : ArbDoc) (key : String) : Bool :=
  jsTruthy (lookupKey doc key)

/-- Whether a key starts with the at sign: a metadata key. -/
def atKey (k : String) : Bool :=
  match k.data with
  | [] => false
  | c :: _ => c = '@'

/-- Build the metadata key: the at sign prepended to the key name. -/
def atKeyOf (k : String) : String := ⟨'@' :: k.data⟩

/-- JS lower-casing on a `String`. -/
def lowerStr (s : String) : String := ⟨lowerAll s.data⟩

/-- The duplicate-value scan of the plain path (`src/extension.ts:211`):
iterate in mapping order, skip keys starting with `@`, compare values
case-insensitively; a `toLowerCase` failure on a non-string value is caught,
reported, and the entry skipped; return the first matching key. -/
def valueScanPlain : ArbDoc → String → Option String
  | [], _ => none
  | (k, v) :: rest, s =>
    if atKey k then valueScanPlain rest s
    else
      match v with
      | .obj _ => valueScanPlain rest s
      | .str w => if lowerStr w = lowerStr s then some k else valueScanPlain rest s

/-- The duplicate-value scan of the parameterized path
(`src/extension.ts:604`): iterate in mapping order over every entry
(metadata entries included), compare values case-insensitively; calling
`toLowerCase` on a non-string value throws, aborting the scan. -/
def valueScanParam : ArbDoc → String → Except Unit (Option String)
  | [], _ => .ok none
  | (k, v) :: rest, s =>
    match v with
    | .obj _ => .error ()
    | .str w =>
      if lowerStr w = lowerStr s then .ok (some k) else valueScanParam rest s

/-- The function modifyArbFile (`src/extension.ts:446`), at the document level: set
`doc[key] = translation` and persist.  No key is rejected. -/
def modifyArbFile (doc : ArbDoc) (key translation : String) : ArbDoc :=
  setKey doc key (.str translation)

/-- First character class of the variable regex
(`src/extension.ts:566`): `[a-zA-Z_$]`. -/
def isC1 (c : Char) : Bool := isAlphaChar c || (c = '_') || (c = '$')

/-- Continuation character class of the variable regex:
`[a-zA-Z_$0-9\[\]\.\?\!\'\(\)]`. -/
def isC2 (c : Char) : Bool :=
  isC1 c || isDigitChar c || (c = '[') || (c = ']') || (c = '.') ||
    (c = '?') || (c = '!') || (c = apos) || (c = '(') || (c = ')')

/-- Match the capture group of the variable regex: a `C1` character followed
by a non-empty greedy run of `C2` characters.  Returns the captured group
and the text after it. -/
def parseGroup : List Char → Option (List Char × List Char)
  | [] => none
  | c0 :: t =>
    if isC1 c0 then
      if t.takeWhile isC2 = [] then none
      else some (c0 :: t.takeWhile isC2, t.dropWhile isC2)
    else none

/-- Attempt to match the body of `/\${?([a-zA-Z_$][a-zA-Z_$0-9...]+)/` right
after a `$`: an optional `{` (whose backtracked alternative cannot succeed,
since `{` is not a `C1` character), then the capture group. -/
def parseVar : List Char → Option (List Char × List Char)
  | [] => none
  | c :: rest => if c = '{' then parseGroup rest else parseGroup (c :: rest)

/-- Fuelled scanner body for the global `exec` loop over the variable regex:
at each `$` try `parseVar`; on success emit the group and resume after it,
on failure (and at any other character) advance one position. -/
def varScanGo : Nat → List Char → List (List Char)
  | 0, _ => []
  | _ + 1, [] => []
  | fuel + 1, c :: rest =>
    if c = '$' then
      match parseVar rest with
      | some (g, rm) => g :: varScanGo fuel rm
      | none => varScanGo fuel rest
    else varScanGo fuel rest

/-- The exec loop of handleVariableString (`src/extension.ts:566`), the
extractPlaceholders operation of the spec, collecting the
captured groups in order of appearance, duplicates included. -/
def varScan (l : List Char) : List (List Char) := varScanGo l.length l

/-- The clean placeholder name: the raw expression with every
non-alphabetic character removed. -/
def cleanName (v : List Char) : List Char := v.filter isAlphaChar

/-- One iteration of the canonicalization loop (`src/extension.ts:619`):
replace the first occurrence of the raw expression with its clean name,
then the first occurrence of `${cleanName}` with `{cleanName}`. -/
def applyVar (t v : List Char) : List Char :=
  let c := cleanName v
  replaceFirst (replaceFirst t v c) ('$' :: '{' :: (c ++ ['}'])) ('{' :: (c ++ ['}']))

/-- The canonicalize operation: the full replacement loop over the
extracted variables. -/
def applyAll (t : List Char) (vars : List (List Char)) : List Char :=
  vars.foldl applyVar t

/-- The placeholder-metadata object (`src/extension.ts:645`):
`placeholders[cleanName] = {}` for each variable in order (a repeated clean
name keeps its first position, JS object semantics). -/
def metaPlaceholders (vars : List (List Char)) : List (String × ArbValue) :=
  vars.foldl (fun acc v => setKey acc ⟨cleanName v⟩ (.obj [])) []

/-- The value stored under `"@" + keyName` (`src/extension.ts:653`). -/
def metaObj (vars : List (List Char)) : ArbValue :=
  .obj [("placeholders", .obj (metaPlaceholders vars))]

/-- The call-style replacement text (`src/extension.ts:629`):
`prefix.key(arg1, arg2, ...)` with every extracted raw expression as a
positional argument, not deduplicated. -/
def buildReplacement (key : String) (vars : List (List Char)) : String :=
  let base := translationPrefix ++ "." ++ key ++ "("
  let withArgs := vars.foldl (fun acc v => acc ++ ⟨v⟩ ++ ", ") base
  ⟨withArgs.data.take (withArgs.data.length - 2)⟩ ++ ")"

/-- Outcome of one extraction request. -/
inductive ExtractResult where
  | ok (key : String) (doc : ArbDoc)
  | err (msg : String)

/-- The function addStringToArb (`src/extension.ts:158`), at the document level: strip
quotes, reject interpolated strings, derive the key from the phrase,
short-circuit on a truthy existing key, then on a case-insensitive value
match, otherwise insert and persist. -/
def addStringToArb (str0 : String) (doc : ArbDoc) : ExtractResult :=
  let str : String := ⟨removeQuotes str0.data⟩
  if str.data.contains '$' then
    .err "Strings with variables are not yet supported"
  else
    let keyName := generateKeyFromString str
    if findDuplicateByKey doc keyName then .ok keyName doc
    else
      match valueScanPlain doc str with
      | some k => .ok k doc
      | none => .ok keyName (setKey doc keyName (.str str))

/-- The function handleVariableString (`src/extension.ts:559`), at the document level:
extract the variables, fail when none parse, derive the key from the raw
text, short-circuit on a truthy existing key, then run the unguarded
duplicate-value scan (which throws on a non-string entry value), otherwise
canonicalize, insert the entry and its placeholder metadata, and persist. -/
def handleVariableString (text : String) (doc : ArbDoc) : ExtractResult :=
  let vars := varScan text.data
  if vars = [] then .err "No variables found in the string"
  else
    let keyName := generateKeyFromString text
    if findDuplicateByKey doc keyName then .ok keyName doc
    else
      match valueScanParam doc text with
      | .error _ => .err "TypeError: toLowerCase is not a function"
      | .ok (some k) => .ok k doc
      | .ok none =>
        let stored : String := ⟨removeQuotes (applyAll text.data vars)⟩
        let d1 := setKey doc keyName (.str stored)
        let d2 := setKey d1 (atKeyOf keyName) (metaObj vars)
        .ok keyName d2

/-- The extraction entry point (`addSelectionToArbHandler`,
`src/extension.ts:286`): raw text containing a `$` goes to the
parameterized path unnormalized; otherwise the text is normalized and goes
to the plain path. -/
def extract (text : String) (doc : ArbDoc) : ExtractResult :=
  if text.data.contains '$' then handleVariableString text doc
  else addStringToArb (normalizePlain text) doc

/-- Reference definition, modelled from the spec (§4.3): case-insensitive
comparison of the value against every non-metadata entry's value, in mapping
iteration order, returning the first matching key or none, with malformed
(non-string) entry values skipped. -/
def findDuplicateByValueSpec (doc : ArbDoc) (v : String) : Option String :=
  ((doc.filter (fun e =>
    !atKey e.1 &&
      match e.2 with
      | .str w => lowerStr w = lowerStr v
      | .obj _ => false)).head?).map Prod.fst

/-! ### Helper lemmas -/

theorem setKey_lookup_self (d : ArbDoc) (k : String) (v : ArbValue) :
    lookupKey (setKey d k v) k = some v := by
  induction d with
  | nil => simp [setKey, lookupKey]
  | cons e rest ih =>
    obtain ⟨k0, v0⟩ := e
    by_cases h : k0 = k
    · simp [setKey, lookupKey, h]
    · simp [setKey, lookupKey, h, ih]

theorem setKey_lookup_ne (d : ArbDoc) (k k2 : String) (v : ArbValue)
    (h : k2 ≠ k) : lookupKey (setKey d k v) k2 = lookupKey d k2 := by
  induction d with
  | nil => simp [setKey, lookupKey, Ne.symm h]
  | cons e rest ih =>
    obtain ⟨k0, v0⟩ := e
    by_cases h0 : k0 = k
    · subst h0
      simp [setKey, lookupKey, Ne.symm h]
    · simp [setKey, lookupKey, h0, ih]

theorem setKey_of_lookup_none (d : ArbDoc) (k : String) (v : ArbValue)
    (h : lookupKey d k = none) : setKey d k v = d ++ [(k, v)] := by
  induction d with
  | nil => simp [setKey]
  | cons e rest ih =>
    obtain ⟨k0, v0⟩ := e
    by_cases h0 : k0 = k
    · simp [lookupKey, h0] at h
    · simp [setKey, lookupKey, h0] at h ⊢
      exact ih h

theorem atKeyOf_ne (k : String) : atKeyOf k ≠ k := by
  intro h
  have hd : (atKeyOf k).data = k.data := congrArg String.data h
  have hl : (atKeyOf k).data.length = k.data.length := congrArg List.length hd
  simp [atKeyOf] at hl

theorem mem_trimChars {l : List Char} {c : Char} (h : c ∈ trimChars l) :
    c ∈ l := by
  unfold trimChars at h
  rw [List.mem_reverse] at h
  have h1 : c ∈ (l.dropWhile isWsChar).reverse :=
    (List.dropWhile_sublist _).mem h
  rw [List.mem_reverse] at h1
  exact (List.dropWhile_sublist _).mem h1

/-! ### C3: reserved-key rejection -/

/-- C3 counterexample: `insertEntry` (= `modifyArbFile`) applied to the key
`"@foo"` does not fail: it inserts the entry, changing the document. -/
theorem c3_counterexample :
    modifyArbFile [] "@foo" "bar" = [("@foo", ArbValue.str "bar")] ∧
      ([("@foo", ArbValue.str "bar")] : ArbDoc) ≠ [] :=
  ⟨rfl, List.cons_ne_nil _ _⟩

/-- C3 amended: `modifyArbFile` performs no reserved-key check; a key
beginning with `@` is written like any other, and the entry is present in
the resulting document. -/
theorem c3_reserved_key_written (d : ArbDoc) (v : String) :
    lookupKey (modifyArbFile d "@foo" v) "@foo" = some (ArbValue.str v) :=
  setKey_lookup_self d "@foo" (ArbValue.str v)

/-! ### C4: plain extraction scenario -/

/-- C4: extracting plain text `"Save"` with user key name `"save"` and
context `"homePage"` derives the key `homePageSave`, and inserting it into
the empty document yields exactly `{"homePageSave": "Save"}`. -/
theorem c4_plain_scenario :
    generateKey "save" "homePage" = "homePageSave" ∧
      modifyArbFile [] (generateKey "save" "homePage") "Save" =
        [("homePageSave", ArbValue.str "Save")] :=
  ⟨rfl, rfl⟩

/-! ### C7: normalization of quotes -/

/-- The raw selection used as the C7 example: `'say "hi"'` (a single-quoted
string with interior double quotes). -/
def c7Input : String := ⟨apos :: ("say \"hi\"".data ++ [apos])⟩

/-- C7 counterexample: normalization removes the interior quote characters
too, producing `say hi` rather than keeping `say "hi"`. -/
theorem c7_counterexample :
    normalizePlain c7Input = "say hi" ∧
      ("say hi" : String) ≠ "say \"hi\"" :=
  ⟨rfl, by decide⟩

/-- C7 amended: the normalize step deletes every quote character occurring
anywhere in the text (global strip), not a single leading/trailing layer;
no quote character survives normalization. -/
theorem c7_global_quote_strip :
    (∀ s : String, (normalizePlain s).data.filter isQuoteChar = []) ∧
      normalizePlain c7Input = "say hi" := by
  refine ⟨?_, rfl⟩
  intro s
  rw [List.eq_nil_iff_forall_not_mem]
  intro c hc
  rw [List.mem_filter] at hc
  obtain ⟨hmem, hq⟩ := hc
  have h1 : c ∈ removeQuotes (replaceFirst s.data translatableToken.data []) :=
    mem_trimChars hmem
  rw [removeQuotes, List.mem_filter] at h1
  rw [hq] at h1
  simp at h1

/-! ### C8: key visible after insert -/

/-- C8 counterexample: inserting the empty-string value under a
non-metadata key is not detected by the duplicate-key check, because the
check is JS truthiness of the looked-up value and `""` is falsy. -/
theorem c8_counterexample :
    atKey "a" = false ∧
      findDuplicateByKey (modifyArbFile [] "a" "") "a" = false :=
  ⟨rfl, rfl⟩

/-- C8 amended: for every non-metadata key and every non-empty value, the
duplicate-key check is true immediately after the insert. -/
theorem c8_insert_then_found (d : ArbDoc) (k v : String)
    (_hk : atKey k = false) (hv : v ≠ "") :
    findDuplicateByKey (modifyArbFile d k v) k = true := by
  unfold findDuplicateByKey modifyArbFile
  rw [setKey_lookup_self]
  simp [jsTruthy, hv]

/-- Witness for C8 amended at `greeting ↦ "Hello World"` over the empty
document. -/
theorem c8_insert_then_found_witness :
    atKey "greeting" = false ∧ ("Hello World" : String) ≠ "" ∧
      findDuplicateByKey (modifyArbFile [] "greeting" "Hello World")
        "greeting" = true :=
  ⟨rfl, by decide, c8_insert_then_found [] "greeting" "Hello World" rfl (by decide)⟩

/-! ### C9: key generation with empty context -/

theorem lower_not_upper {c : Char} (h : isLowerChar c = true) :
    isUpperChar c = false := by
  simp [isLowerChar] at h
  simp [isUpperChar]
  omega

theorem lower_ne_underscore {c : Char} (h : isLowerChar c = true) :
    c ≠ '_' := by
  intro he
  subst he
  exact absurd h (by decide)

theorem flatMap_snake_id {l : List Char}
    (h : ∀ c ∈ l, isUpperChar c = false) : l.flatMap snakeChar = l := by
  induction l with
  | nil => rfl
  | cons c rest ih =>
    have hc := h c (List.mem_cons_self _ _)
    have hr := ih (fun x hx => h x (List.mem_cons_of_mem _ hx))
    simp [List.flatMap_cons, snakeChar, hc, hr]

theorem lowerAll_id {l : List Char}
    (h : ∀ c ∈ l, isUpperChar c = false) : lowerAll l = l := by
  induction l with
  | nil => rfl
  | cons c rest ih =>
    have hc := h c (List.mem_cons_self _ _)
    have hr := ih (fun x hx => h x (List.mem_cons_of_mem _ hx))
    have hcl : lowerChar c = c := by
      rw [lowerChar, hc]
      rfl
    show lowerChar c :: lowerAll rest = c :: rest
    rw [hcl, hr]

theorem camelStep_id {l : List Char}
    (h : ∀ c ∈ l, c ≠ '_') : camelStep l = l := by
  induction l with
  | nil => rfl
  | cons c rest ih =>
    have hc := h c (List.mem_cons_self _ _)
    have hr := ih (fun x hx => h x (List.mem_cons_of_mem _ hx))
    rw [camelStep.eq_def]
    simp [hc, hr]

/-- C9 counterexample: with an empty context label, `generateKey` yields
`"Save"`, not the plain variable-name key `"save"` that the
snake/camel pipeline produces for the variable name alone. -/
theorem c9_counterexample :
    generateKey "save" "" = "Save" ∧
      toCamelCase (toSnakeCase "save") = "save" ∧
      ("Save" : String) ≠ "save" :=
  ⟨rfl, rfl, by decide⟩

/-- C9 amended: with an empty context label the key still carries an
artifact of the missing context — the leading underscore of
`"_" + snake(variableName)` capitalizes the first letter, so a lowercase
alphabetic variable name yields its capitalized form, not itself. -/
theorem c9_empty_context_capitalizes (v : String) (hne : v ≠ "")
    (hlow : ∀ c ∈ v.data, isLowerChar c = true) :
    generateKey v "" = ⟨capFirst v.data⟩ := by
  cases v with
  | mk l =>
    have hl : l ≠ [] := by
      intro h
      exact hne (by rw [h])
    have hupper : ∀ c ∈ l, isUpperChar c = false :=
      fun c hc => lower_not_upper (hlow c hc)
    have hunder : ∀ c ∈ l, c ≠ '_' :=
      fun c hc => lower_ne_underscore (hlow c hc)
    show (⟨camelStep (lowerAll ([] ++ '_' :: l.flatMap snakeChar))⟩ : String) =
      ⟨capFirst l⟩
    rw [flatMap_snake_id hupper, List.nil_append]
    have hmap : lowerAll ('_' :: l) = '_' :: l := by
      rw [lowerAll, List.map_cons]
      show '_' :: lowerAll l = '_' :: l
      rw [lowerAll_id hupper]
    rw [hmap]
    cases l with
    | nil => exact absurd rfl hl
    | cons c rest =>
      have hc : isLowerChar c = true := hlow c (List.mem_cons_self _ _)
      have hr : ∀ x ∈ rest, x ≠ '_' :=
        fun x hx => hunder x (List.mem_cons_of_mem _ hx)
      simp [camelStep, hc, camelStep_id hr, capFirst]

/-- Witness for C9 amended at variable name `"save"`. -/
theorem c9_empty_context_capitalizes_witness :
    ("save" : String) ≠ "" ∧
      (∀ c ∈ ("save" : String).data, isLowerChar c = true) ∧
      generateKey "save" "" = ⟨capFirst ("save" : String).data⟩ :=
  ⟨by decide, by decide,
    c9_empty_context_capitalizes "save" (by decide) (by decide)⟩

/-! ### C10: key collisions between phrases -/

/-- C10: `generateKeyFromString` depends only on the per-word letter
content: two phrases whose space-split words agree after deleting every
non-alphabetic character generate the identical key; in particular
`"Hello, World!"` and `"Hello World"` both map to `helloWorld`. -/
theorem c10_nonalpha_insensitive
    (p q : String)
    (h : (splitSpace p.data).map stripNonAlpha =
      (splitSpace q.data).map stripNonAlpha) :
    generateKeyFromString p = generateKeyFromString q := by
  have hmap : ∀ L : List (List Char),
      L.map (fun w => capFirst (stripNonAlpha w)) =
        (L.map stripNonAlpha).map capFirst := by
    intro L
    simp [List.map_map, Function.comp]
  unfold generateKeyFromString
  apply congrArg String.mk
  apply congrArg lowFirst
  apply congrArg List.flatten
  rw [hmap, hmap, h]

/-- Witness for C10 at the colliding phrases `"Hello, World!"` and
`"Hello World"`, both generating `helloWorld`. -/
theorem c10_nonalpha_insensitive_witness :
    ((splitSpace ("Hello, World!" : String).data).map stripNonAlpha =
      (splitSpace ("Hello World" : String).data).map stripNonAlpha) ∧
      generateKeyFromString "Hello, World!" = generateKeyFromString "Hello World" ∧
      generateKeyFromString "Hello, World!" = "helloWorld" :=
  ⟨by decide, c10_nonalpha_insensitive "Hello, World!" "Hello World" (by decide), rfl⟩

/-! ### C6: duplicate placeholder tokens -/

/-- Comma-and-space join of the argument lists, as they appear inside the
parentheses of the call-style replacement. -/
def commaJoin : List (List Char) → List Char
  | [] => []
  | [v] => v
  | v :: vs => v ++ ',' :: ' ' :: commaJoin vs

theorem foldl_args_data (vs : List (List Char)) (acc : String) :
    (vs.foldl (fun a v => a ++ (⟨v⟩ : String) ++ ", ") acc).data =
      acc.data ++ (vs.map (fun w => w ++ [',', ' '])).flatten := by
  induction vs generalizing acc with
  | nil => simp
  | cons v vs ih =>
    rw [List.foldl_cons, ih]
    simp [String.data_append]

theorem flatten_args_commaJoin (v : List Char) (vs : List (List Char)) :
    (((v :: vs).map (fun w => w ++ [',', ' '])).flatten) =
      commaJoin (v :: vs) ++ [',', ' '] := by
  induction vs generalizing v with
  | nil => simp [commaJoin]
  | cons w vs ih =>
    rw [List.map_cons, List.flatten_cons, ih w]
    show v ++ [',', ' '] ++ (commaJoin (w :: vs) ++ [',', ' ']) =
      (v ++ ',' :: ' ' :: commaJoin (w :: vs)) ++ [',', ' ']
    simp

/-- C6: a variable interpolated twice yields two placeholder tokens, in
order of appearance and not deduplicated, and the call-style replacement
text lists every extracted token verbatim as a positional argument —
concretely, `"Hello $name and $name"` produces the tokens
`[name, name]` and the replacement `…helloNameAndName(name, name)`. -/
theorem c6_duplicate_tokens :
    varScan ("Hello $name and $name" : String).data =
        ["name".data, "name".data] ∧
      buildReplacement (generateKeyFromString "Hello $name and $name")
          (varScan ("Hello $name and $name" : String).data) =
        "LocalizationProvider.instance.l10n.helloNameAndName(name, name)" ∧
      ∀ (key : String) (v : List Char) (vs : List (List Char)),
        (buildReplacement key (v :: vs)).data =
          translationPrefix.data ++
            '.' :: key.data ++ '(' :: (commaJoin (v :: vs) ++ [')']) := by
  refine ⟨rfl, rfl, ?_⟩
  intro key v vs
  unfold buildReplacement
  rw [String.data_append]
  have hbase : (translationPrefix ++ "." ++ key ++ "(").data =
      (translationPrefix.data ++ '.' :: key.data) ++ ['('] := by
    simp [String.data_append]
  rw [foldl_args_data, hbase, flatten_args_commaJoin]
  show ((translationPrefix.data ++ '.' :: key.data) ++ ['('] ++
      (commaJoin (v :: vs) ++ [',', ' '])).take
        (((translationPrefix.data ++ '.' :: key.data) ++ ['('] ++
          (commaJoin (v :: vs) ++ [',', ' '])).length - 2) ++ [')'] = _
  have hsplit :
      (translationPrefix.data ++ '.' :: key.data) ++ ['('] ++
        (commaJoin (v :: vs) ++ [',', ' ']) =
      ((translationPrefix.data ++ '.' :: key.data) ++ '(' ::
        commaJoin (v :: vs)) ++ [',', ' '] := by
    simp
  rw [hsplit]
  have hlen :
      (((translationPrefix.data ++ '.' :: key.data) ++ '(' ::
          commaJoin (v :: vs)) ++ [',', ' ']).length - 2 =
      ((translationPrefix.data ++ '.' :: key.data) ++ '(' ::
          commaJoin (v :: vs)).length := by
    simp
    omega
  rw [hlen, List.take_left]
  simp

/-! ### C1: parameterized extraction round-trip -/

/-- The C1 input literal. -/
def c1Input : String := "Hello $name, you owe ${amount} dollars"

/-- C1 counterexample: canonicalization leaves the sigil of the bare
interpolation `$name` in place — the stored value is
`"Hello $name, you owe {amount} dollars"`, not the claimed
`"Hello name, you owe {amount} dollars"`. -/
theorem c1_counterexample :
    (⟨removeQuotes (applyAll c1Input.data (varScan c1Input.data))⟩ : String) =
        "Hello $name, you owe {amount} dollars" ∧
      ("Hello $name, you owe {amount} dollars" : String) ≠
        "Hello name, you owe {amount} dollars" :=
  ⟨rfl, by decide⟩

/-- C1 amended: on the input `"Hello $name, you owe ${amount} dollars"`,
`extractPlaceholders` yields the tokens `name` and `amount` in that order;
canonicalization produces the stored value
`"Hello $name, you owe {amount} dollars"` (the brace-delimited
interpolation loses its sigil, the bare one keeps it); and the inserted
metadata entry keyed `@<key>` has placeholders `{name: {}, amount: {}}`. -/
theorem c1_parameterized_roundtrip :
    varScan c1Input.data = ["name".data, "amount".data] ∧
      handleVariableString c1Input [] =
        ExtractResult.ok "helloNameYouOweAmountDollars"
          [("helloNameYouOweAmountDollars",
              ArbValue.str "Hello $name, you owe {amount} dollars"),
            ("@helloNameYouOweAmountDollars",
              ArbValue.obj [("placeholders",
                ArbValue.obj [("name", ArbValue.obj []),
                  ("amount", ArbValue.obj [])])])] :=
  ⟨rfl, rfl⟩

/-! ### C2: duplicate-value scan -/

/-- A document with a metadata entry (object value) preceding a plain
entry, as produced by any earlier parameterized insertion. -/
def c2Doc : ArbDoc :=
  [("@greeting", ArbValue.obj [("placeholders", ArbValue.obj [])]),
    ("greeting", ArbValue.str "Hello World")]

/-- C2 counterexample: on the same document and value, the plain path's
scan skips the metadata entry and returns `greeting`, while the
parameterized path's scan hits the object value first and aborts with a
thrown error instead of returning the matching key. -/
theorem c2_counterexample :
    valueScanPlain c2Doc "hello world" = some "greeting" ∧
      valueScanParam c2Doc "hello world" = Except.error () :=
  ⟨rfl, rfl⟩

/-- C2 amended: the plain path's duplicate-value check behaves exactly as
described — case-insensitive, metadata keys excluded, malformed entries
skipped, first match in iteration order — being extensionally equal to the
spec's reference scan; the parameterized path's check, however, iterates
every entry unguarded, so a non-string value aborts the scan with an
error. -/
theorem c2_value_scan :
    (∀ (doc : ArbDoc) (v : String),
      valueScanPlain doc v = findDuplicateByValueSpec doc v) ∧
      valueScanParam c2Doc "hello world" = Except.error () := by
  refine ⟨?_, rfl⟩
  intro doc v
  induction doc with
  | nil => rfl
  | cons e rest ih =>
    obtain ⟨k, w⟩ := e
    by_cases hk : atKey k
    · cases w with
      | str s => simp [valueScanPlain, findDuplicateByValueSpec, List.filter, hk, ih]
      | obj fs => simp [valueScanPlain, findDuplicateByValueSpec, List.filter, hk, ih]
    · cases w with
      | obj fs =>
        simp [valueScanPlain, findDuplicateByValueSpec, List.filter, hk, ih]
      | str s =>
        by_cases hs : lowerStr s = lowerStr v
        · simp [valueScanPlain, findDuplicateByValueSpec, List.filter, hk, hs]
        · simp [valueScanPlain, findDuplicateByValueSpec, List.filter, hk, hs, ih]

/-! ### C5 support: occurrence analysis of `replaceFirst` -/

theorem replaceFirst_cases (s pat rep : List Char) :
    replaceFirst s pat rep = s ∨
      ∃ s₁ s₂, s = s₁ ++ pat ++ s₂ ∧
        replaceFirst s pat rep = s₁ ++ rep ++ s₂ := by
  induction s with
  | nil =>
    by_cases h : pat = ([] : List Char)
    · right
      exact ⟨[], [], by simp [h], by simp [replaceFirst, h]⟩
    · left
      simp [replaceFirst, h]
  | cons c rest ih =>
    by_cases h : pat.isPrefixOf (c :: rest)
    · right
      obtain ⟨t, ht⟩ := List.isPrefixOf_iff_prefix.mp h
      refine ⟨[], t, by simp [ht.symm], ?_⟩
      show replaceFirst (c :: rest) pat rep = rep ++ t
      rw [replaceFirst.eq_def]
      simp only [if_pos h]
      rw [← ht, List.drop_left]
    · rw [replaceFirst.eq_def]
      simp only [if_neg h]
      rcases ih with ih | ⟨s₁, s₂, h1, h2⟩
      · left
        rw [ih]
      · right
        exact ⟨c :: s₁, s₂, by rw [h1]; rfl, by rw [h2]; rfl⟩

theorem count_replaceFirst_ge (s pat rep : List Char) (a : Char) :
    List.count a s ≤ List.count a (replaceFirst s pat rep) + List.count a pat := by
  rcases replaceFirst_cases s pat rep with h | ⟨s₁, s₂, h1, h2⟩
  · rw [h]
    omega
  · rw [h2, h1]
    simp [List.count_append]
    omega

theorem count_replaceFirst_eq (s pat rep : List Char) (a : Char)
    (h : List.count a pat = List.count a rep) :
    List.count a (replaceFirst s pat rep) = List.count a s := by
  rcases replaceFirst_cases s pat rep with hh | ⟨s₁, s₂, h1, h2⟩
  · rw [hh]
  · rw [h2, h1]
    simp [List.count_append]
    omega

theorem replaceFirst_no_occ (s pat rep : List Char) (a : Char)
    (hpat : 0 < List.count a pat) (hs : List.count a s = 0) :
    replaceFirst s pat rep = s := by
  rcases replaceFirst_cases s pat rep with h | ⟨s₁, s₂, h1, h2⟩
  · exact h
  · exfalso
    rw [h1] at hs
    simp [List.count_append] at hs
    omega

/-! ### C5 support: the variable scanner -/

theorem isC1_isC2 {c : Char} (h : isC1 c = true) : isC2 c = true := by
  simp [isC2, h]

theorem parseGroup_split {l g rm : List Char}
    (h : parseGroup l = some (g, rm)) :
    l = g ++ rm ∧ g ≠ [] ∧ (∀ c ∈ g, isC2 c = true) := by
  cases l with
  | nil => simp [parseGroup] at h
  | cons c0 t =>
    by_cases h1 : isC1 c0 = true
    · by_cases h2 : t.takeWhile isC2 = ([] : List Char)
      · simp [parseGroup, h1, h2] at h
      · simp [parseGroup, h1, h2] at h
        obtain ⟨hg, hrm⟩ := h
        subst hg
        subst hrm
        refine ⟨by simp [List.takeWhile_append_dropWhile], by simp, ?_⟩
        intro c hc
        rcases List.mem_cons.mp hc with rfl | hc2
        · exact isC1_isC2 h1
        · exact List.mem_takeWhile_imp hc2
    · simp [parseGroup, h1] at h

theorem parseVar_split {l g rm : List Char}
    (h : parseVar l = some (g, rm)) :
    (l = g ++ rm ∨ l = '{' :: (g ++ rm)) ∧ g ≠ [] ∧
      (∀ c ∈ g, isC2 c = true) := by
  cases l with
  | nil => simp [parseVar] at h
  | cons c rest =>
    by_cases hc : c = '{'
    · subst hc
      rw [parseVar, if_pos rfl] at h
      obtain ⟨he, hne, hc2⟩ := parseGroup_split h
      exact ⟨Or.inr (by rw [he]), hne, hc2⟩
    · rw [parseVar, if_neg hc] at h
      obtain ⟨he, hne, hc2⟩ := parseGroup_split h
      exact ⟨Or.inl he, hne, hc2⟩

theorem parseVar_rm_le {l g rm : List Char}
    (h : parseVar l = some (g, rm)) : rm.length < l.length := by
  obtain ⟨hsplit, hne, _⟩ := parseVar_split h
  have hg : 0 < g.length := List.length_pos.mpr hne
  rcases hsplit with he | he
  · rw [he]
    simp [List.length_append]
    omega
  · rw [he]
    simp [List.length_append]
    omega

theorem varScanGo_bound :
    ∀ (fuel : Nat) (l : List Char), l.length ≤ fuel →
      (varScanGo fuel l).length +
          ((varScanGo fuel l).map (List.count '$')).sum ≤
        List.count '$' l := by
  intro fuel
  induction fuel with
  | zero =>
    intro l h
    simp [varScanGo]
  | succ n ih =>
    intro l h
    cases l with
    | nil => simp [varScanGo]
    | cons c rest =>
      have hrest : rest.length ≤ n := by
        simp at h
        omega
      rw [varScanGo]
      by_cases hc : c = '$'
      · rw [if_pos hc]
        subst hc
        cases hp : parseVar rest with
        | none =>
          have := ih rest hrest
          simp [List.count_cons]
          omega
        | some grm =>
          obtain ⟨g, rm⟩ := grm
          obtain ⟨hsplit, _, _⟩ := parseVar_split hp
          have hrm : rm.length ≤ n := by
            have := parseVar_rm_le hp
            omega
          have hih := ih rm hrm
          have hcount : List.count '$' g + List.count '$' rm ≤
              List.count '$' rest := by
            rcases hsplit with he | he
            · rw [he]
              simp [List.count_append]
            · rw [he]
              simp [List.count_cons, List.count_append]
          simp [List.count_cons, List.map_cons, List.sum_cons]
          omega
      · rw [if_neg hc]
        have := ih rest hrest
        simp [List.count_cons, hc]
        omega

theorem varScanGo_chars :
    ∀ (fuel : Nat) (l : List Char) (g : List Char),
      g ∈ varScanGo fuel l → ∀ c ∈ g, isC2 c = true := by
  intro fuel
  induction fuel with
  | zero =>
    intro l g hg
    simp [varScanGo] at hg
  | succ n ih =>
    intro l g hg
    cases l with
    | nil => simp [varScanGo] at hg
    | cons c rest =>
      rw [varScanGo] at hg
      by_cases hc : c = '$'
      · rw [if_pos hc] at hg
        cases hp : parseVar rest with
        | none =>
          rw [hp] at hg
          exact ih rest g hg
        | some grm =>
          obtain ⟨g0, rm⟩ := grm
          rw [hp] at hg
          rcases List.mem_cons.mp hg with rfl | hg2
          · exact (parseVar_split hp).2.2
          · exact ih rm g hg2
      · rw [if_neg hc] at hg
        exact ih rest g hg

theorem count_cleanName_eq_zero {a : Char} (ha : isAlphaChar a = false)
    (v : List Char) : List.count a (cleanName v) = 0 := by
  rw [List.count_eq_zero]
  intro hmem
  rw [cleanName, List.mem_filter] at hmem
  rw [hmem.2] at ha
  cases ha

theorem count_eq_zero_of_c2 {g : List Char}
    (hg : ∀ c ∈ g, isC2 c = true) {a : Char} (ha : isC2 a = false) :
    List.count a g = 0 := by
  rw [List.count_eq_zero]
  intro hmem
  rw [hg a hmem] at ha
  cases ha

/-! ### C5 support: canonicalization preserves a non-quote character -/

theorem applyVar_brace (t v : List Char) (hv : List.count '{' v = 0) :
    List.count '{' (applyVar t v) = List.count '{' t := by
  unfold applyVar
  have hclean : List.count '{' (cleanName v) = 0 :=
    count_cleanName_eq_zero (by decide) v
  have h1 : List.count '{' (replaceFirst t v (cleanName v)) =
      List.count '{' t :=
    count_replaceFirst_eq t v (cleanName v) '{' (by omega)
  rw [count_replaceFirst_eq, h1]
  simp [List.count_cons, List.count_append, hclean]

theorem applyVar_dollar (t v : List Char) (ht : List.count '{' t = 0)
    (hv : List.count '{' v = 0) :
    List.count '$' t ≤ List.count '$' (applyVar t v) + List.count '$' v := by
  unfold applyVar
  have hclean : List.count '{' (cleanName v) = 0 :=
    count_cleanName_eq_zero (by decide) v
  have hA : List.count '{' (replaceFirst t v (cleanName v)) = 0 := by
    rw [count_replaceFirst_eq t v (cleanName v) '{' (by omega), ht]
  have hB : replaceFirst (replaceFirst t v (cleanName v))
      ('$' :: '{' :: (cleanName v ++ ['}']))
      ('{' :: (cleanName v ++ ['}'])) = replaceFirst t v (cleanName v) := by
    apply replaceFirst_no_occ _ _ _ '{'
    · simp [List.count_cons]
    · exact hA
  rw [hB]
  exact count_replaceFirst_ge t v (cleanName v) '$'

theorem applyAll_bound (vars : List (List Char)) :
    ∀ t : List Char, (∀ v ∈ vars, List.count '{' v = 0) →
      List.count '{' (applyAll t vars) = List.count '{' t ∧
        (List.count '{' t = 0 →
          List.count '$' t ≤ List.count '$' (applyAll t vars) +
            (vars.map (List.count '$')).sum) := by
  induction vars with
  | nil =>
    intro t _
    exact ⟨rfl, fun _ => by simp [applyAll]⟩
  | cons v vs ih =>
    intro t h
    have hv := h v (List.mem_cons_self _ _)
    have hvs := fun x hx => h x (List.mem_cons_of_mem _ hx)
    have happ : applyAll t (v :: vs) = applyAll (applyVar t v) vs := rfl
    constructor
    · rw [happ, (ih _ hvs).1, applyVar_brace t v hv]
    · intro ht0
      have hb : List.count '{' (applyVar t v) = 0 := by
        rw [applyVar_brace t v hv, ht0]
      have h2 := (ih (applyVar t v) hvs).2 hb
      have h3 := applyVar_dollar t v ht0 hv
      rw [happ]
      simp only [List.map_cons, List.sum_cons]
      omega

/-- The central invariant of the parameterized path: when at least one
variable was extracted, the canonicalized, quote-stripped stored value is
never the empty string (a `$` or a `{` always survives). -/
theorem stored_nonempty {l : List Char} (h : varScan l ≠ []) :
    removeQuotes (applyAll l (varScan l)) ≠ [] := by
  have hch : ∀ g ∈ varScan l, ∀ c ∈ g, isC2 c = true :=
    fun g hg => varScanGo_chars l.length l g hg
  have hbrace : ∀ g ∈ varScan l, List.count '{' g = 0 :=
    fun g hg => count_eq_zero_of_c2 (hch g hg) (by decide)
  have hm : 1 ≤ (varScan l).length := by
    cases hv : varScan l with
    | nil => exact absurd hv h
    | cons a b => simp
  have hmain := applyAll_bound (varScan l) l hbrace
  by_cases ht : List.count '{' l = 0
  · have hd := varScanGo_bound l.length l (Nat.le_refl _)
    have h2 := hmain.2 ht
    have hdollar : 0 < List.count '$' (applyAll l (varScan l)) := by
      have : (varScan l).length +
          ((varScan l).map (List.count '$')).sum ≤ List.count '$' l := hd
      omega
    have hmem : '$' ∈ applyAll l (varScan l) :=
      List.count_pos_iff.mp hdollar
    intro hnil
    have hq : '$' ∈ removeQuotes (applyAll l (varScan l)) := by
      rw [removeQuotes, List.mem_filter]
      exact ⟨hmem, by decide⟩
    rw [hnil] at hq
    cases hq
  · have h1 := hmain.1
    have hbpos : 0 < List.count '{' (applyAll l (varScan l)) := by
      omega
    have hmem : '{' ∈ applyAll l (varScan l) :=
      List.count_pos_iff.mp hbpos
    intro hnil
    have hq : '{' ∈ removeQuotes (applyAll l (varScan l)) := by
      rw [removeQuotes, List.mem_filter]
      exact ⟨hmem, by decide⟩
    rw [hnil] at hq
    cases hq

/-! ### C5 support: generated keys are alphabetic -/

theorem toNat_ofNat_valid {n : Nat} (h : Nat.isValidChar n) :
    (Char.ofNat n).toNat = n := by
  simp [Char.ofNat, Char.toNat, Char.ofNatAux, h]
  simp [UInt32.toNat, BitVec.toNat_ofNat]

theorem upperChar_alpha {c : Char} (h : isAlphaChar c = true) :
    isAlphaChar (upperChar c) = true := by
  rw [upperChar]
  by_cases hl : isLowerChar c = true
  · rw [if_pos hl]
    simp [isLowerChar] at hl
    have hv : Nat.isValidChar (c.toNat - 32) := Or.inl (by omega)
    simp [isAlphaChar, isUpperChar, isLowerChar, toNat_ofNat_valid hv]
    omega
  · rw [if_neg hl]
    exact h

theorem lowerChar_alpha {c : Char} (h : isAlphaChar c = true) :
    isAlphaChar (lowerChar c) = true := by
  rw [lowerChar]
  by_cases hu : isUpperChar c = true
  · rw [if_pos hu]
    simp [isUpperChar] at hu
    have hv : Nat.isValidChar (c.toNat + 32) := Or.inl (by omega)
    simp [isAlphaChar, isUpperChar, isLowerChar, toNat_ofNat_valid hv]
    omega
  · rw [if_neg hu]
    exact h

theorem capFirst_alpha {l : List Char}
    (h : ∀ c ∈ l, isAlphaChar c = true) :
    ∀ c ∈ capFirst l, isAlphaChar c = true := by
  cases l with
  | nil =>
    intro c hc
    cases hc
  | cons c0 t =>
    intro c hc
    rcases List.mem_cons.mp hc with rfl | h1
    · exact upperChar_alpha (h c0 (List.mem_cons_self _ _))
    · exact h c (List.mem_cons_of_mem _ h1)

theorem lowFirst_alpha {l : List Char}
    (h : ∀ c ∈ l, isAlphaChar c = true) :
    ∀ c ∈ lowFirst l, isAlphaChar c = true := by
  cases l with
  | nil =>
    intro c hc
    cases hc
  | cons c0 t =>
    intro c hc
    rcases List.mem_cons.mp hc with rfl | h1
    · exact lowerChar_alpha (h c0 (List.mem_cons_self _ _))
    · exact h c (List.mem_cons_of_mem _ h1)

theorem gk_chars (s : String) :
    ∀ c ∈ (generateKeyFromString s).data, isAlphaChar c = true := by
  intro c hc
  have hc2 : c ∈ lowFirst
      (((splitSpace s.data).map (fun w => capFirst (stripNonAlpha w))).flatten) :=
    hc
  refine lowFirst_alpha ?_ c hc2
  intro x hx
  rw [List.mem_flatten] at hx
  obtain ⟨w, hw, hxw⟩ := hx
  rw [List.mem_map] at hw
  obtain ⟨w0, _, rfl⟩ := hw
  exact capFirst_alpha (fun y hy => (List.mem_filter.mp hy).2) x hxw

theorem gk_not_at (s : String) :
    atKey (generateKeyFromString s) = false := by
  rw [atKey]
  cases hd : (generateKeyFromString s).data with
  | nil => rfl
  | cons c t =>
    have hc : isAlphaChar c = true :=
      gk_chars s c (hd ▸ List.mem_cons_self c t)
    have hne : c ≠ '@' := by
      intro he
      rw [he] at hc
      exact absurd hc (by decide)
    simp [hne]

/-! ### C5 support: the plain value scan after an append -/

theorem valueScanPlain_append_match (d : ArbDoc) (s k w : String)
    (hd : valueScanPlain d s = none) (hk : atKey k = false)
    (hw : lowerStr w = lowerStr s) :
    valueScanPlain (d ++ [(k, ArbValue.str w)]) s = some k := by
  induction d with
  | nil => simp [valueScanPlain, hk, hw]
  | cons e rest ih =>
    obtain ⟨k0, v0⟩ := e
    by_cases h0 : atKey k0 = true
    · simp [valueScanPlain, h0] at hd ⊢
      exact ih hd
    · cases v0 with
      | obj f =>
        simp [valueScanPlain, h0] at hd ⊢
        exact ih hd
      | str w0 =>
        by_cases hw0 : lowerStr w0 = lowerStr s
        · simp [valueScanPlain, h0, hw0] at hd
        · simp [valueScanPlain, h0, hw0] at hd ⊢
          exact ih hd

theorem valueScanPlain_ne_none_of_entry (d : ArbDoc) (s k w : String)
    (hl : lookupKey d k = some (ArbValue.str w)) (hk : atKey k = false)
    (hw : lowerStr w = lowerStr s) :
    valueScanPlain d s ≠ none := by
  induction d with
  | nil => simp [lookupKey] at hl
  | cons e rest ih =>
    obtain ⟨k0, v0⟩ := e
    by_cases h0 : k0 = k
    · subst h0
      rw [lookupKey, if_pos rfl] at hl
      have hv0 : v0 = ArbValue.str w := by
        injection hl
      subst hv0
      simp [valueScanPlain, hk, hw]
    · have hl2 : lookupKey rest k = some (ArbValue.str w) := by
        rw [lookupKey, if_neg h0] at hl
        exact hl
      by_cases ha : atKey k0 = true
      · simp [valueScanPlain, ha]
        exact ih hl2
      · cases v0 with
        | obj f =>
          simp [valueScanPlain, ha]
          exact ih hl2
        | str w0 =>
          by_cases hw0 : lowerStr w0 = lowerStr s
          · simp [valueScanPlain, ha, hw0]
          · simp [valueScanPlain, ha, hw0]
            exact ih hl2

/-! ### C5: idempotence of extraction -/

theorem addStringToArb_idem {s : String} {d d2 : ArbDoc} {k : String}
    (h : addStringToArb s d = .ok k d2) :
    addStringToArb s d2 = .ok k d2 := by
  simp only [addStringToArb] at h ⊢
  by_cases hdol : (⟨removeQuotes s.data⟩ : String).data.contains '$' = true
  · rw [if_pos hdol] at h
    simp at h
  · rw [if_neg hdol] at h ⊢
    by_cases hdk :
        findDuplicateByKey d (generateKeyFromString ⟨removeQuotes s.data⟩) = true
    · rw [if_pos hdk] at h
      simp at h
      obtain ⟨hk, hd⟩ := h
      subst hk
      subst hd
      rw [if_pos hdk]
    · rw [if_neg hdk] at h
      cases hscan : valueScanPlain d (⟨removeQuotes s.data⟩ : String) with
      | some k0 =>
        rw [hscan] at h
        simp at h
        obtain ⟨hk, hd⟩ := h
        subst hk
        subst hd
        rw [if_neg hdk, hscan]
      | none =>
        rw [hscan] at h
        simp at h
        obtain ⟨hk, hd⟩ := h
        subst hk
        subst hd
        by_cases hst : (⟨removeQuotes s.data⟩ : String) = ""
        · have hdk2 : jsTruthy (lookupKey d
              (generateKeyFromString ⟨removeQuotes s.data⟩)) = false := by
            have := Bool.not_eq_true _ |>.mp hdk
            exact this
          have hlk : lookupKey d
              (generateKeyFromString ⟨removeQuotes s.data⟩) = none := by
            cases hv : lookupKey d
                (generateKeyFromString ⟨removeQuotes s.data⟩) with
            | none => rfl
            | some v =>
              exfalso
              cases v with
              | obj f =>
                rw [hv] at hdk2
                simp [jsTruthy] at hdk2
              | str w =>
                have hw : w = "" := by
                  rw [hv] at hdk2
                  by_cases hwe : w = ""
                  · exact hwe
                  · simp [jsTruthy, hwe] at hdk2
                subst hw
                exact valueScanPlain_ne_none_of_entry d
                  (⟨removeQuotes s.data⟩ : String)
                  (generateKeyFromString ⟨removeQuotes s.data⟩) "" hv
                  (gk_not_at _) (by rw [hst]) hscan
          have hset : setKey d (generateKeyFromString ⟨removeQuotes s.data⟩)
              (ArbValue.str ⟨removeQuotes s.data⟩) =
              d ++ [((generateKeyFromString ⟨removeQuotes s.data⟩),
                ArbValue.str ⟨removeQuotes s.data⟩)] :=
            setKey_of_lookup_none d _ _ hlk
          have hfd2 : findDuplicateByKey
              (setKey d (generateKeyFromString ⟨removeQuotes s.data⟩)
                (ArbValue.str ⟨removeQuotes s.data⟩))
              (generateKeyFromString ⟨removeQuotes s.data⟩) = false := by
            rw [findDuplicateByKey, setKey_lookup_self]
            simp [jsTruthy, hst]
          have hscan2 : valueScanPlain
              (setKey d (generateKeyFromString ⟨removeQuotes s.data⟩)
                (ArbValue.str ⟨removeQuotes s.data⟩))
              (⟨removeQuotes s.data⟩ : String) = some
              (generateKeyFromString ⟨removeQuotes s.data⟩) := by
            rw [hset]
            exact valueScanPlain_append_match d _ _ _ hscan (gk_not_at _) rfl
          rw [if_neg (by rw [hfd2]; simp), hscan2]
        · have hfd2 : findDuplicateByKey
              (setKey d (generateKeyFromString ⟨removeQuotes s.data⟩)
                (ArbValue.str ⟨removeQuotes s.data⟩))
              (generateKeyFromString ⟨removeQuotes s.data⟩) = true := by
            rw [findDuplicateByKey, setKey_lookup_self]
            simp [jsTruthy, hst]
          rw [if_pos hfd2]

theorem handleVariableString_idem {t : String} {d d2 : ArbDoc} {k : String}
    (h : handleVariableString t d = .ok k d2) :
    handleVariableString t d2 = .ok k d2 := by
  simp only [handleVariableString] at h ⊢
  by_cases hv : varScan t.data = []
  · rw [if_pos hv] at h
    simp at h
  · rw [if_neg hv] at h ⊢
    by_cases hdk : findDuplicateByKey d (generateKeyFromString t) = true
    · rw [if_pos hdk] at h
      simp at h
      obtain ⟨hk, hd⟩ := h
      subst hk
      subst hd
      rw [if_pos hdk]
    · rw [if_neg hdk] at h
      cases hscan : valueScanParam d t with
      | error e =>
        rw [hscan] at h
        simp at h
      | ok o =>
        cases o with
        | some k0 =>
          rw [hscan] at h
          simp at h
          obtain ⟨hk, hd⟩ := h
          subst hk
          subst hd
          rw [if_neg hdk, hscan]
        | none =>
          rw [hscan] at h
          simp at h
          obtain ⟨hk, hd⟩ := h
          subst hk
          subst hd
          have hne : generateKeyFromString t ≠ atKeyOf (generateKeyFromString t) :=
            Ne.symm (atKeyOf_ne _)
          have hstored :
              (⟨removeQuotes (applyAll t.data (varScan t.data))⟩ : String) ≠ "" := by
            intro he
            exact stored_nonempty hv (congrArg String.data he)
          have hfd : findDuplicateByKey
              (setKey (setKey d (generateKeyFromString t)
                  (ArbValue.str ⟨removeQuotes (applyAll t.data (varScan t.data))⟩))
                (atKeyOf (generateKeyFromString t))
                (metaObj (varScan t.data)))
              (generateKeyFromString t) = true := by
            rw [findDuplicateByKey, setKey_lookup_ne _ _ _ _ hne,
              setKey_lookup_self]
            simp [jsTruthy, hstored]
          rw [if_pos hfd]

/-- C5: extraction is idempotent — if a call of `extract` on raw text with
no user-supplied key succeeds with key `k` and document `d2`, then a second
call with the identical raw text returns the same key `k` and leaves the
document exactly `d2` (in particular the entry count is unchanged). -/
theorem c5_extract_idempotent (text : String) (doc : ArbDoc) (k : String)
    (d2 : ArbDoc) (h : extract text doc = .ok k d2) :
    extract text d2 = .ok k d2 := by
  rw [extract] at h ⊢
  by_cases hdol : text.data.contains '$' = true
  · rw [if_pos hdol] at h ⊢
    exact handleVariableString_idem h
  · rw [if_neg hdol] at h ⊢
    exact addStringToArb_idem h

/-- Witness for C5: extracting `"Save"` from the empty document inserts
`save ↦ Save`; the second extraction returns the same key and document. -/
theorem c5_extract_idempotent_witness :
    extract "Save" [] = ExtractResult.ok "save" [("save", ArbValue.str "Save")] ∧
      extract "Save" [("save", ArbValue.str "Save")] =
        ExtractResult.ok "save" [("save", ArbValue.str "Save")] :=
  ⟨rfl, c5_extract_idempotent "Save" [] "save" [("save", ArbValue.str "Save")] rfl⟩

end L10n
